import Mathlib

/-!
Verification of `abp/filters/rpy.py`: the rPython integration module of
python-abp.  The module has three functions:

* `tuple2dict` converts a parsed filter (a namedtuple) to a dict, adding a
  `type` entry that holds the class name of the namedtuple;
* `strings2utf8` recursively re-encodes every unicode string in a nested
  structure of dicts, lists and tuples to its UTF-8 byte string;
* `line2dict` composes the external `parse_line` with the two functions above.

Python values are embedded as the inductive type `PyVal`.  Python dicts are
modelled as insertion-ordered association lists with overwrite-on-duplicate
semantics (`setD`, `fromPairs`), which is exactly what a dict comprehension
such as the one in `strings2utf8` does: a later duplicate key overwrites the
value stored at the first occurrence of that key.
-/

mutual
inductive PyVal where
  | dict : PyPairs → PyVal
  | list : PyList → PyVal
  | tup : PyList → PyVal
  | str : String → PyVal
  | bytes : List Nat → PyVal
  | int : Int → PyVal
  | bool : Bool → PyVal
  | none : PyVal
  | other : Nat → PyVal
deriving DecidableEq

inductive PyList where
  | nil : PyList
  | cons : PyVal → PyList → PyList
deriving DecidableEq

inductive PyPairs where
  | nil : PyPairs
  | cons : PyVal → PyVal → PyPairs → PyPairs
deriving DecidableEq
end

/-- UTF-8 encoding of a text value, as a list of byte values.  This models
Python's `s.encode('utf-8')`. -/
def utf8 (s : String) : List Nat :=
  (s.data.flatMap String.utf8EncodeChar).map UInt8.toNat

/-- Entries of a Python dict, as an ordinary list of key-value pairs in
insertion order. -/
def toListP : PyPairs → List (PyVal × PyVal)
  | .nil => []
  | .cons k v kvs => (k, v) :: toListP kvs

/-- Keys of a Python dict, in insertion order. -/
def keysD : PyPairs → List PyVal
  | .nil => []
  | .cons k _ kvs => k :: keysD kvs

/-- Number of entries of a Python dict. -/
def pairsLen : PyPairs → Nat
  | .nil => 0
  | .cons _ _ kvs => pairsLen kvs + 1

/-- Python `d[k] = v` on a dict: if the key is already present its value is
overwritten in place (keeping the position of the first occurrence),
otherwise the new entry is appended at the end. -/
def setD : PyPairs → PyVal → PyVal → PyPairs
  | .nil, k, v => .cons k v .nil
  | .cons k0 v0 rest, k, v =>
    if k0 = k then .cons k0 v rest else .cons k0 v0 (setD rest k v)

/-- Python `d[k]`, as an option: the value stored at the first occurrence of
the key. -/
def lookupD : PyPairs → PyVal → Option PyVal
  | .nil, _ => Option.none
  | .cons k0 v0 rest, k => if k0 = k then some v0 else lookupD rest k

/-- Insert a list of key-value pairs one after the other into an accumulator
dict, via `setD`. -/
def insertAll : PyPairs → PyPairs → PyPairs
  | acc, .nil => acc
  | acc, .cons k v rest => insertAll (setD acc k v) rest

/-- Build a Python dict from a sequence of key-value pairs: this is the
semantics of a dict comprehension (or of `dict(...)` applied to a sequence of
pairs).  A duplicate key overwrites the earlier value. -/
def fromPairs (ps : PyPairs) : PyPairs := insertAll .nil ps

/-- Concatenation of two entry lists. -/
def appendP : PyPairs → PyPairs → PyPairs
  | .nil, b => b
  | .cons k v rest, b => .cons k v (appendP rest b)

mutual
/-- Embedding of `strings2utf8` from `abp/filters/rpy.py`: recursively walk
the value; a dict becomes a dict comprehension over re-encoded keys and
values, a list or tuple is rebuilt element-wise, a unicode string becomes its
UTF-8 byte string, and anything else is returned unchanged. -/
def strings2utf8 : PyVal → PyVal
  | .dict kvs => .dict (fromPairs (s2uPairs kvs))
  | .list vs => .list (s2uList vs)
  | .tup vs => .tup (s2uList vs)
  | .str s => .bytes (utf8 s)
  | .bytes b => .bytes b
  | .int n => .int n
  | .bool b => .bool b
  | .none => .none
  | .other n => .other n

/-- Elementwise `strings2utf8` over the elements of a list or tuple. -/
def s2uList : PyList → PyList
  | .nil => .nil
  | .cons v vs => .cons (strings2utf8 v) (s2uList vs)

/-- Pairwise `strings2utf8` over the entries of a dict, before the dict is
rebuilt by the comprehension. -/
def s2uPairs : PyPairs → PyPairs
  | .nil => .nil
  | .cons k v kvs => .cons (strings2utf8 k) (strings2utf8 v) (s2uPairs kvs)
end

/-- A parsed filter line: a namedtuple, i.e. an immutable record carrying the
name of its class (the variant tag) and its named fields in declaration
order.  Python's namedtuple guarantees the field names are pairwise
distinct; theorems that need this take it as a hypothesis. -/
structure NamedTuple where
  variant : String
  fields : List (String × PyVal)
deriving DecidableEq

/-- Field list of a namedtuple as dict entries, in field order.  This models
`data._asdict()`. -/
def fieldsToPairs : List (String × PyVal) → PyPairs
  | [] => .nil
  | f :: fs => .cons (.str f.1) f.2 (fieldsToPairs fs)

/-- Entries of the dict produced by `tuple2dict`: `dict(data._asdict())`
followed by `result['type'] = data.__class__.__name__`. -/
def tuple2dictPairs (data : NamedTuple) : PyPairs :=
  setD (fromPairs (fieldsToPairs data.fields)) (.str "type") (.str data.variant)

/-- Embedding of `tuple2dict` from `abp/filters/rpy.py`. -/
def tuple2dict (data : NamedTuple) : PyVal :=
  .dict (tuple2dictPairs data)

/-- Embedding of `line2dict` from `abp/filters/rpy.py`:
`strings2utf8(tuple2dict(parse_line(text)))`.  The external parser
`parse_line` is a parameter; an exception it raises propagates, so the
composition is written in the exception (Except) monad. -/
def line2dict {E : Type} (parse : String → Except E NamedTuple)
    (text : String) : Except E PyVal :=
  match parse text with
  | .ok r => .ok (strings2utf8 (tuple2dict r))
  | .error e => .error e

/-- Modelled from the spec: `parse_line` itself is external to this module
(only `rpy.py` and its tests are in scope); the spec states that the parser
classifies the empty line as the `empty` variant with no fields.  This is the
tagged record for that classification. -/
def emptyLineRecord : NamedTuple :=
  { variant := "empty", fields := [] }

mutual
/-- Correspondence between an input value and its byte-encoded form, exactly
as the spec describes the encoder: every text leaf is replaced by its UTF-8
byte sequence, the structural shape (mapping entries, sequence order, tuple
arity) is unchanged, and every non-text leaf is unchanged. -/
inductive Encodes : PyVal → PyVal → Prop where
  | dict {kvs kvs'} : EncodesPairs kvs kvs' → Encodes (.dict kvs) (.dict kvs')
  | list {vs vs'} : EncodesList vs vs' → Encodes (.list vs) (.list vs')
  | tup {vs vs'} : EncodesList vs vs' → Encodes (.tup vs) (.tup vs')
  | str (s : String) : Encodes (.str s) (.bytes (utf8 s))
  | bytes (b : List Nat) : Encodes (.bytes b) (.bytes b)
  | int (n : Int) : Encodes (.int n) (.int n)
  | bool (b : Bool) : Encodes (.bool b) (.bool b)
  | none : Encodes .none .none
  | other (n : Nat) : Encodes (.other n) (.other n)

/-- Elementwise `Encodes` between two lists of the same length. -/
inductive EncodesList : PyList → PyList → Prop where
  | nil : EncodesList .nil .nil
  | cons {v v' vs vs'} : Encodes v v' → EncodesList vs vs' →
      EncodesList (.cons v vs) (.cons v' vs')

/-- Pairwise `Encodes` between two entry lists of the same length: keys
correspond to keys and values to values, in order. -/
inductive EncodesPairs : PyPairs → PyPairs → Prop where
  | nil : EncodesPairs .nil .nil
  | cons {k k' v v' kvs kvs'} : Encodes k k' → Encodes v v' →
      EncodesPairs kvs kvs' → EncodesPairs (.cons k v kvs) (.cons k' v' kvs')
end

mutual
/-- Within every mapping of the value, at any depth, the keys remain pairwise
distinct after encoding.  Real Python dicts always have distinct keys; this
can still fail after encoding, e.g. for a dict containing both the text key
"a" and the bytes key b"a". -/
def goodKeys : PyVal → Bool
  | .dict kvs => decide (keysD (s2uPairs kvs)).Nodup && goodKeysPairs kvs
  | .list vs => goodKeysList vs
  | .tup vs => goodKeysList vs
  | _ => true

/-- Elementwise `goodKeys` over a list or tuple. -/
def goodKeysList : PyList → Bool
  | .nil => true
  | .cons v vs => goodKeys v && goodKeysList vs

/-- Pairwise `goodKeys` over the keys and values of a dict. -/
def goodKeysPairs : PyPairs → Bool
  | .nil => true
  | .cons k v kvs => goodKeys k && goodKeys v && goodKeysPairs kvs
end

/-! ## Lemmas about the dict model -/

/-- Plain structural induction for `PyPairs`, not touching the other two
types of the mutual family. -/
@[induction_eliminator]
def PyPairs.inductionOn {P : PyPairs → Prop} (nil : P .nil)
    (cons : ∀ k v rest, P rest → P (.cons k v rest)) : (ps : PyPairs) → P ps
  | .nil => nil
  | .cons k v rest => cons k v rest (PyPairs.inductionOn nil cons rest)

/-- Plain structural induction for `PyList`, not touching the other two types
of the mutual family. -/
@[induction_eliminator]
def PyList.inductionOn {P : PyList → Prop} (nil : P .nil)
    (cons : ∀ v rest, P rest → P (.cons v rest)) : (vs : PyList) → P vs
  | .nil => nil
  | .cons v rest => cons v rest (PyList.inductionOn nil cons rest)

theorem keysD_appendP (a b : PyPairs) :
    keysD (appendP a b) = keysD a ++ keysD b := by
  induction a with
  | nil => rfl
  | cons k v rest ih => simp [appendP, keysD, ih]

theorem setD_not_mem {ps : PyPairs} {k : PyVal} (h : k ∉ keysD ps) (v : PyVal) :
    setD ps k v = appendP ps (.cons k v .nil) := by
  induction ps with
  | nil => rfl
  | cons k0 v0 rest ih =>
      simp only [keysD, List.mem_cons, not_or] at h
      simp [setD, appendP, Ne.symm h.1, ih h.2]

theorem keysD_setD (ps : PyPairs) (k v : PyVal) :
    keysD (setD ps k v) = if k ∈ keysD ps then keysD ps else keysD ps ++ [k] := by
  induction ps with
  | nil => simp [setD, keysD]
  | cons k0 v0 rest ih =>
      by_cases hk : k0 = k
      · subst hk; simp [setD, keysD]
      · simp only [setD, if_neg hk, keysD, ih, List.mem_cons]
        by_cases hm : k ∈ keysD rest
        · simp [hm]
        · simp [hm, Ne.symm hk]

theorem pairsLen_setD (ps : PyPairs) (k v : PyVal) :
    pairsLen (setD ps k v) =
      if k ∈ keysD ps then pairsLen ps else pairsLen ps + 1 := by
  induction ps with
  | nil => simp [setD, pairsLen, keysD]
  | cons k0 v0 rest ih =>
      by_cases hk : k0 = k
      · subst hk; simp [setD, pairsLen, keysD]
      · simp only [setD, if_neg hk, pairsLen, ih, keysD, List.mem_cons]
        by_cases hm : k ∈ keysD rest
        · simp [hm]
        · simp [hm, Ne.symm hk]

theorem lookupD_setD_self (ps : PyPairs) (k v : PyVal) :
    lookupD (setD ps k v) k = some v := by
  induction ps with
  | nil => simp [setD, lookupD]
  | cons k0 v0 rest ih =>
      by_cases hk : k0 = k
      · subst hk; simp [setD, lookupD]
      · simp [setD, hk, lookupD, ih]

theorem nodup_keysD_setD {ps : PyPairs} (h : (keysD ps).Nodup) (k v : PyVal) :
    (keysD (setD ps k v)).Nodup := by
  rw [keysD_setD]
  by_cases hm : k ∈ keysD ps
  · simpa [hm] using h
  · simpa [hm] using List.Nodup.append h (List.nodup_singleton k)
      (by simpa using fun hk => hm hk)

theorem nodup_keysD_insertAll {acc : PyPairs} (h : (keysD acc).Nodup)
    (l : PyPairs) : (keysD (insertAll acc l)).Nodup := by
  induction l generalizing acc with
  | nil => simpa [insertAll] using h
  | cons k v rest ih => exact ih (nodup_keysD_setD h k v)

theorem nodup_keysD_fromPairs (l : PyPairs) : (keysD (fromPairs l)).Nodup :=
  nodup_keysD_insertAll (by simp [keysD]) l

theorem appendP_nil (a : PyPairs) : appendP a .nil = a := by
  induction a with
  | nil => rfl
  | cons k v rest ih => simp [appendP, ih]

theorem appendP_assoc (a b c : PyPairs) :
    appendP (appendP a b) c = appendP a (appendP b c) := by
  induction a with
  | nil => rfl
  | cons k v rest ih => simp [appendP, ih]

theorem insertAll_disjoint {acc l : PyPairs}
    (h1 : ∀ k ∈ keysD l, k ∉ keysD acc) (h2 : (keysD l).Nodup) :
    insertAll acc l = appendP acc l := by
  induction l generalizing acc with
  | nil => simp [insertAll, appendP_nil]
  | cons k v rest ih =>
      simp only [keysD, List.nodup_cons] at h2
      have hk : k ∉ keysD acc := h1 k (by simp [keysD])
      have step : insertAll acc (.cons k v rest)
          = insertAll (appendP acc (.cons k v .nil)) rest := by
        simp [insertAll, setD_not_mem hk]
      have hdisj : ∀ k' ∈ keysD rest, k' ∉ keysD (appendP acc (.cons k v .nil)) := by
        intro k' hk'
        rw [keysD_appendP]
        simp only [keysD, List.mem_append, List.mem_cons, List.not_mem_nil,
          or_false, not_or]
        exact ⟨h1 k' (by simp [keysD, hk']), fun h => h2.1 (h ▸ hk')⟩
      rw [step, ih hdisj h2.2, appendP_assoc]
      rfl

theorem fromPairs_eq_self {l : PyPairs} (h : (keysD l).Nodup) :
    fromPairs l = l := by
  rw [fromPairs, insertAll_disjoint (by simp [keysD]) h]; rfl

theorem mem_toListP_setD {p : PyVal × PyVal} {ps : PyPairs} {k v : PyVal}
    (h : p ∈ toListP (setD ps k v)) : p ∈ toListP ps ∨ p = (k, v) := by
  induction ps with
  | nil => simpa [setD, toListP] using h
  | cons k0 v0 rest ih =>
      by_cases hk : k0 = k
      · subst hk
        simp only [setD, if_pos rfl, toListP, List.mem_cons] at h
        rcases h with h | h
        · exact Or.inr (by simp [h])
        · exact Or.inl (by simp [toListP, h])
      · simp only [setD, if_neg hk, toListP, List.mem_cons] at h
        rcases h with h | h
        · exact Or.inl (by simp [toListP, h])
        · rcases ih h with h' | h'
          · exact Or.inl (by simp [toListP, h'])
          · exact Or.inr h'

theorem mem_toListP_insertAll {p : PyVal × PyVal} {acc l : PyPairs}
    (h : p ∈ toListP (insertAll acc l)) : p ∈ toListP acc ∨ p ∈ toListP l := by
  induction l generalizing acc with
  | nil => exact Or.inl h
  | cons k v rest ih =>
      rcases ih h with h' | h'
      · rcases mem_toListP_setD h' with h'' | h''
        · exact Or.inl h''
        · exact Or.inr (by simp [toListP, h''])
      · exact Or.inr (by simp [toListP, h'])

theorem mem_toListP_fromPairs {p : PyVal × PyVal} {l : PyPairs}
    (h : p ∈ toListP (fromPairs l)) : p ∈ toListP l := by
  rcases mem_toListP_insertAll h with h' | h'
  · simp [toListP] at h'
  · exact h'

/-! ## Lemmas about the encoder -/

theorem toListP_s2uPairs (kvs : PyPairs) :
    toListP (s2uPairs kvs)
      = (toListP kvs).map fun p => (strings2utf8 p.1, strings2utf8 p.2) := by
  induction kvs with
  | nil => rfl
  | cons k v rest ih => simp [s2uPairs, toListP, ih]

theorem s2uPairs_fixed_of_mem {l : PyPairs}
    (h : ∀ p ∈ toListP l, strings2utf8 p.1 = p.1 ∧ strings2utf8 p.2 = p.2) :
    s2uPairs l = l := by
  induction l with
  | nil => rfl
  | cons k v rest ih =>
      have hk := h (k, v) (by simp [toListP])
      simp only [s2uPairs, hk.1, hk.2,
        ih fun p hp => h p (by simp [toListP, hp])]

mutual
theorem s2u_idem : (x : PyVal) → strings2utf8 (strings2utf8 x) = strings2utf8 x
  | .dict kvs => by
      have hfix : s2uPairs (fromPairs (s2uPairs kvs)) = fromPairs (s2uPairs kvs) :=
        s2uPairs_fixed_of_mem fun p hp =>
          s2uPairs_imageFixed kvs p (mem_toListP_fromPairs hp)
      show PyVal.dict (fromPairs (s2uPairs (fromPairs (s2uPairs kvs))))
          = PyVal.dict (fromPairs (s2uPairs kvs))
      rw [hfix, fromPairs_eq_self (nodup_keysD_fromPairs (s2uPairs kvs))]
  | .list vs => by
      show PyVal.list (s2uList (s2uList vs)) = PyVal.list (s2uList vs)
      rw [s2uList_idem vs]
  | .tup vs => by
      show PyVal.tup (s2uList (s2uList vs)) = PyVal.tup (s2uList vs)
      rw [s2uList_idem vs]
  | .str _ => rfl
  | .bytes _ => rfl
  | .int _ => rfl
  | .bool _ => rfl
  | .none => rfl
  | .other _ => rfl

theorem s2uList_idem : (vs : PyList) → s2uList (s2uList vs) = s2uList vs
  | .nil => rfl
  | .cons v vs => by simp only [s2uList, s2u_idem v, s2uList_idem vs]

theorem s2uPairs_imageFixed : (kvs : PyPairs) →
    ∀ p ∈ toListP (s2uPairs kvs),
      strings2utf8 p.1 = p.1 ∧ strings2utf8 p.2 = p.2
  | .nil => by simp [s2uPairs, toListP]
  | .cons k v rest => by
      intro p hp
      simp only [s2uPairs, toListP, List.mem_cons] at hp
      rcases hp with rfl | hp
      · exact ⟨s2u_idem k, s2u_idem v⟩
      · exact s2uPairs_imageFixed rest p hp
end

mutual
theorem encodes_s2u : (x : PyVal) → goodKeys x = true →
    Encodes x (strings2utf8 x)
  | .dict kvs, h => by
      simp only [goodKeys, Bool.and_eq_true, decide_eq_true_eq] at h
      show Encodes (PyVal.dict kvs) (PyVal.dict (fromPairs (s2uPairs kvs)))
      rw [fromPairs_eq_self h.1]
      exact Encodes.dict (encodesPairs_s2u kvs h.2)
  | .list vs, h => Encodes.list (encodesList_s2u vs h)
  | .tup vs, h => Encodes.tup (encodesList_s2u vs h)
  | .str s, _ => Encodes.str s
  | .bytes b, _ => Encodes.bytes b
  | .int n, _ => Encodes.int n
  | .bool b, _ => Encodes.bool b
  | .none, _ => Encodes.none
  | .other n, _ => Encodes.other n

theorem encodesList_s2u : (vs : PyList) → goodKeysList vs = true →
    EncodesList vs (s2uList vs)
  | .nil, _ => EncodesList.nil
  | .cons v vs, h => by
      simp only [goodKeysList, Bool.and_eq_true] at h
      exact EncodesList.cons (encodes_s2u v h.1) (encodesList_s2u vs h.2)

theorem encodesPairs_s2u : (kvs : PyPairs) → goodKeysPairs kvs = true →
    EncodesPairs kvs (s2uPairs kvs)
  | .nil, _ => EncodesPairs.nil
  | .cons k v rest, h => by
      simp only [goodKeysPairs, Bool.and_eq_true] at h
      exact EncodesPairs.cons (encodes_s2u k h.1.1) (encodes_s2u v h.1.2)
        (encodesPairs_s2u rest h.2)
end

/-! ## Lemmas about tuple2dict -/

theorem keysD_fieldsToPairs (fs : List (String × PyVal)) :
    keysD (fieldsToPairs fs) = fs.map fun f => PyVal.str f.1 := by
  induction fs with
  | nil => rfl
  | cons f fs ih => simp [fieldsToPairs, keysD, ih]

theorem pairsLen_fieldsToPairs (fs : List (String × PyVal)) :
    pairsLen (fieldsToPairs fs) = fs.length := by
  induction fs with
  | nil => rfl
  | cons f fs ih => simp [fieldsToPairs, pairsLen, ih]

theorem nodup_keysD_fieldsToPairs {fs : List (String × PyVal)}
    (h : (fs.map Prod.fst).Nodup) : (keysD (fieldsToPairs fs)).Nodup := by
  rw [keysD_fieldsToPairs]
  have heq : (fs.map fun f => PyVal.str f.1) = (fs.map Prod.fst).map PyVal.str := by
    simp [List.map_map]
  rw [heq]
  exact h.map fun a b hab => by injection hab

theorem pairsLen_s2uPairs (kvs : PyPairs) :
    pairsLen (s2uPairs kvs) = pairsLen kvs := by
  induction kvs with
  | nil => rfl
  | cons k v rest ih => simp [s2uPairs, pairsLen, ih]

/-! ## Claims -/

/-- C1 (amended): for every finite acyclic value in which each mapping's
keys remain pairwise distinct after encoding, the result of `strings2utf8`
has every text leaf replaced by its UTF-8 byte sequence, has the same
structural shape (mapping entries, sequence order, tuple arity) as the
input, and has every non-text scalar leaf passed through unchanged. -/
theorem claim1_encoder_shape (x : PyVal) (h : goodKeys x = true) :
    Encodes x (strings2utf8 x) :=
  encodes_s2u x h

theorem claim1_witness :
    goodKeys (PyVal.dict (.cons (.str "a")
      (.list (.cons (.str "b") (.cons (.int 3) .nil))) .nil)) = true ∧
    Encodes (PyVal.dict (.cons (.str "a")
        (.list (.cons (.str "b") (.cons (.int 3) .nil))) .nil))
      (strings2utf8 (PyVal.dict (.cons (.str "a")
        (.list (.cons (.str "b") (.cons (.int 3) .nil))) .nil))) :=
  ⟨by decide, claim1_encoder_shape (PyVal.dict (.cons (.str "a")
    (.list (.cons (.str "b") (.cons (.int 3) .nil))) .nil)) (by decide)⟩

/-- C1 as stated is false: the dict with text key "a" and bytes key b"a"
has two entries, but its encoding has a single entry, so the structural
shape is not preserved. -/
theorem claim1_counterexample :
    strings2utf8 (PyVal.dict (.cons (.str "a") (.int 0)
        (.cons (.bytes [97]) (.int 1) .nil)))
      = PyVal.dict (.cons (.bytes [97]) (.int 1) .nil) ∧
    ¬ Encodes (PyVal.dict (.cons (.str "a") (.int 0)
        (.cons (.bytes [97]) (.int 1) .nil)))
      (strings2utf8 (PyVal.dict (.cons (.str "a") (.int 0)
        (.cons (.bytes [97]) (.int 1) .nil)))) := by
  refine ⟨rfl, ?_⟩
  intro h
  have h' : Encodes (PyVal.dict (.cons (.str "a") (.int 0)
      (.cons (.bytes [97]) (.int 1) .nil)))
      (PyVal.dict (.cons (.bytes [97]) (.int 1) .nil)) := h
  cases h' with
  | dict hp =>
      cases hp with
      | cons hk hv ht => cases ht

/-- C2: for every record with pairwise-distinct field names (a namedtuple
invariant), `tuple2dict` yields a mapping whose key set is exactly the field
names plus "type", and whose value at key "type" is the record's variant
name. -/
theorem claim2_tuple2dict_keys (nt : NamedTuple)
    (h : (nt.fields.map Prod.fst).Nodup) :
    tuple2dict nt = PyVal.dict (tuple2dictPairs nt) ∧
    (keysD (tuple2dictPairs nt)).toFinset
      = (nt.fields.map fun f => PyVal.str f.1).toFinset ∪ {PyVal.str "type"} ∧
    lookupD (tuple2dictPairs nt) (PyVal.str "type")
      = some (PyVal.str nt.variant) := by
  refine ⟨rfl, ?_, lookupD_setD_self _ _ _⟩
  ext k
  simp only [List.mem_toFinset, Finset.mem_union, Finset.mem_singleton]
  show k ∈ keysD (setD (fromPairs (fieldsToPairs nt.fields))
    (.str "type") (.str nt.variant)) ↔ _
  rw [fromPairs_eq_self (nodup_keysD_fieldsToPairs h)]
  simp only [keysD_setD, keysD_fieldsToPairs]
  by_cases hm : PyVal.str "type" ∈ nt.fields.map fun f => PyVal.str f.1
  · rw [if_pos hm]
    exact ⟨Or.inl, fun h' => h'.elim id fun hk => hk ▸ hm⟩
  · rw [if_neg hm]
    simp [List.mem_append]

theorem claim2_witness :
    ((([("foo", PyVal.int 1), ("bar", PyVal.str "x")]
        : List (String × PyVal)).map Prod.fst).Nodup) ∧
    (tuple2dict (NamedTuple.mk "tuple"
        [("foo", PyVal.int 1), ("bar", PyVal.str "x")])
      = PyVal.dict (tuple2dictPairs (NamedTuple.mk "tuple"
        [("foo", PyVal.int 1), ("bar", PyVal.str "x")])) ∧
    (keysD (tuple2dictPairs (NamedTuple.mk "tuple"
        [("foo", PyVal.int 1), ("bar", PyVal.str "x")]))).toFinset
      = (([("foo", PyVal.int 1), ("bar", PyVal.str "x")]
          : List (String × PyVal)).map fun f => PyVal.str f.1).toFinset
        ∪ {PyVal.str "type"} ∧
    lookupD (tuple2dictPairs (NamedTuple.mk "tuple"
        [("foo", PyVal.int 1), ("bar", PyVal.str "x")]))
      (PyVal.str "type") = some (PyVal.str "tuple")) :=
  ⟨by decide, claim2_tuple2dict_keys (NamedTuple.mk "tuple"
    [("foo", PyVal.int 1), ("bar", PyVal.str "x")]) (by decide)⟩

/-- C3: `line2dict` applies the external parser, then `tuple2dict`, then
`strings2utf8`; an error from the external parser propagates to the caller
unmodified, with no translation or wrapping. -/
theorem claim3_pipeline {E : Type} (parse : String → Except E NamedTuple)
    (line : String) :
    (∀ r : NamedTuple, parse line = .ok r →
      line2dict parse line = .ok (strings2utf8 (tuple2dict r))) ∧
    (∀ e : E, parse line = .error e → line2dict parse line = .error e) := by
  constructor
  · intro r hr; simp [line2dict, hr]
  · intro e he; simp [line2dict, he]

theorem claim3_witness :
    ((fun _ : String => (Except.ok (NamedTuple.mk "empty" [])
        : Except Nat NamedTuple)) ""
      = .ok (NamedTuple.mk "empty" [])) ∧
    line2dict (fun _ : String => (Except.ok (NamedTuple.mk "empty" [])
        : Except Nat NamedTuple)) ""
      = .ok (strings2utf8 (tuple2dict (NamedTuple.mk "empty" []))) ∧
    ((fun _ : String => (Except.error 7 : Except Nat NamedTuple)) ""
      = .error 7) ∧
    line2dict (fun _ : String => (Except.error 7 : Except Nat NamedTuple)) ""
      = .error 7 :=
  ⟨rfl,
    (claim3_pipeline (fun _ : String => (Except.ok
      (NamedTuple.mk "empty" []) : Except Nat NamedTuple)) "").1
      (NamedTuple.mk "empty" []) rfl,
    rfl,
    (claim3_pipeline (fun _ : String => (Except.error 7
      : Except Nat NamedTuple)) "").2 7 rfl⟩

/-- C4: `strings2utf8` is idempotent on every value, and a value that is
already byte-encoded (the result of an earlier encoding) is returned
unchanged. -/
theorem claim4_idem :
    (∀ x : PyVal, strings2utf8 (strings2utf8 x) = strings2utf8 x) ∧
    (∀ y : PyVal, (∃ x : PyVal, y = strings2utf8 x) → strings2utf8 y = y) :=
  ⟨s2u_idem, fun y h => by rcases h with ⟨x, rfl⟩; exact s2u_idem x⟩

theorem claim4_witness :
    strings2utf8 (strings2utf8 (PyVal.list (.cons (.str "a") .nil)))
      = strings2utf8 (PyVal.list (.cons (.str "a") .nil)) ∧
    (∃ x : PyVal, PyVal.bytes [97] = strings2utf8 x) ∧
    strings2utf8 (PyVal.bytes [97]) = PyVal.bytes [97] :=
  ⟨claim4_idem.1 (PyVal.list (.cons (.str "a") .nil)),
    ⟨PyVal.str "a", by decide⟩,
    claim4_idem.2 (PyVal.bytes [97]) ⟨PyVal.str "a", by decide⟩⟩

/-- C5: both conversion functions are total (they are plain structurally
recursive functions, defined on every input); a value of an unrecognized
kind falls through every branch of `strings2utf8` and is returned itself,
and `tuple2dict` performs no validation: it yields a mapping for every
record. -/
theorem claim5_total :
    (∀ n : Nat, strings2utf8 (PyVal.other n) = PyVal.other n) ∧
    strings2utf8 PyVal.none = PyVal.none ∧
    (∀ n : Int, strings2utf8 (PyVal.int n) = PyVal.int n) ∧
    (∀ b : Bool, strings2utf8 (PyVal.bool b) = PyVal.bool b) ∧
    (∀ nt : NamedTuple, tuple2dict nt = PyVal.dict (tuple2dictPairs nt)) :=
  ⟨fun _ => rfl, rfl, fun _ => rfl, fun _ => rfl, fun _ => rfl⟩

/-- C6: on a mapping, `strings2utf8` rebuilds a new mapping whose entries
are the recursively re-encoded keys and values in order; a text key becomes
its UTF-8 bytes while a non-text key passes through unchanged. -/
theorem claim6_dict_encoding (kvs : PyPairs) :
    strings2utf8 (PyVal.dict kvs) = PyVal.dict (fromPairs (s2uPairs kvs)) ∧
    toListP (s2uPairs kvs)
      = (toListP kvs).map (fun p => (strings2utf8 p.1, strings2utf8 p.2)) ∧
    (∀ s : String, strings2utf8 (PyVal.str s) = PyVal.bytes (utf8 s)) ∧
    (∀ n : Int, strings2utf8 (PyVal.int n) = PyVal.int n) ∧
    (∀ b : List Nat, strings2utf8 (PyVal.bytes b) = PyVal.bytes b) ∧
    (∀ b : Bool, strings2utf8 (PyVal.bool b) = PyVal.bool b) :=
  ⟨rfl, toListP_s2uPairs kvs, fun _ => rfl, fun _ => rfl,
    fun _ => rfl, fun _ => rfl⟩

/-- C7: with the spec-modelled classification of the empty line as the
`empty` variant with no fields, `line2dict` on the empty line returns the
mapping from b"type" to b"empty". -/
theorem claim7_empty_line {E : Type} (parse : String → Except E NamedTuple)
    (h : parse "" = .ok emptyLineRecord) :
    line2dict parse ""
      = .ok (PyVal.dict (.cons (.bytes [116, 121, 112, 101])
          (.bytes [101, 109, 112, 116, 121]) .nil)) := by
  have hx : strings2utf8 (tuple2dict emptyLineRecord)
      = PyVal.dict (.cons (.bytes [116, 121, 112, 101])
          (.bytes [101, 109, 112, 116, 121]) .nil) := by decide
  simp [line2dict, h, hx]

theorem claim7_witness :
    ((fun _ : String => (Except.ok emptyLineRecord
        : Except Unit NamedTuple)) "" = .ok emptyLineRecord) ∧
    line2dict (fun _ : String => (Except.ok emptyLineRecord
        : Except Unit NamedTuple)) ""
      = .ok (PyVal.dict (.cons (.bytes [116, 121, 112, 101])
          (.bytes [101, 109, 112, 116, 121]) .nil)) :=
  ⟨rfl, claim7_empty_line (fun _ : String => (Except.ok emptyLineRecord
    : Except Unit NamedTuple)) rfl⟩

/-- C9: when the record itself has a field named "type" (with distinct field
names, the namedtuple invariant), `tuple2dict` silently overwrites that
field's value with the variant name, and the output has exactly as many
entries as the record has fields. -/
theorem claim9_type_overwritten (nt : NamedTuple)
    (h1 : (nt.fields.map Prod.fst).Nodup)
    (h2 : "type" ∈ nt.fields.map Prod.fst) :
    lookupD (tuple2dictPairs nt) (PyVal.str "type")
      = some (PyVal.str nt.variant) ∧
    pairsLen (tuple2dictPairs nt) = nt.fields.length := by
  refine ⟨lookupD_setD_self _ _ _, ?_⟩
  simp only [tuple2dictPairs]
  rw [fromPairs_eq_self (nodup_keysD_fieldsToPairs h1)]
  have hm : PyVal.str "type" ∈ nt.fields.map fun f => PyVal.str f.1 := by
    rcases List.mem_map.1 h2 with ⟨f, hf, heq⟩
    exact List.mem_map.2 ⟨f, hf, by rw [heq]⟩
  simp only [pairsLen_setD, keysD_fieldsToPairs, if_pos hm,
    pairsLen_fieldsToPairs]

theorem claim9_witness :
    ((([("type", PyVal.int 7)] : List (String × PyVal)).map Prod.fst).Nodup) ∧
    ("type" ∈ ([("type", PyVal.int 7)]
      : List (String × PyVal)).map Prod.fst) ∧
    (lookupD (tuple2dictPairs (NamedTuple.mk "filter"
        [("type", PyVal.int 7)])) (PyVal.str "type")
      = some (PyVal.str "filter") ∧
    pairsLen (tuple2dictPairs (NamedTuple.mk "filter"
        [("type", PyVal.int 7)])) = 1) :=
  ⟨by decide, by decide, claim9_type_overwritten
    (NamedTuple.mk "filter" [("type", PyVal.int 7)])
    (by decide) (by decide)⟩

/-- C10: entries of a mapping whose keys become equal after encoding are
merged (the dict with text key "a" and bytes key b"a" encodes to a
single-entry dict holding the later value), so the output can have fewer
entries than the input; when the encoded keys remain pairwise distinct, the
comprehension keeps every entry and the entry count is preserved. -/
theorem claim10_key_merge :
    (strings2utf8 (PyVal.dict (.cons (.str "a") (.int 0)
        (.cons (.bytes [97]) (.int 1) .nil)))
      = PyVal.dict (.cons (.bytes [97]) (.int 1) .nil)) ∧
    pairsLen (.cons (.str "a") (.int 0)
      (.cons (.bytes [97]) (.int 1) .nil)) = 2 ∧
    pairsLen (.cons (.bytes [97]) (.int 1) .nil) = 1 ∧
    (∀ kvs : PyPairs, (keysD (s2uPairs kvs)).Nodup →
      strings2utf8 (PyVal.dict kvs) = PyVal.dict (s2uPairs kvs) ∧
      pairsLen (s2uPairs kvs) = pairsLen kvs) := by
  refine ⟨rfl, rfl, rfl, fun kvs h => ⟨?_, pairsLen_s2uPairs kvs⟩⟩
  show PyVal.dict (fromPairs (s2uPairs kvs)) = PyVal.dict (s2uPairs kvs)
  rw [fromPairs_eq_self h]

theorem claim10_witness :
    strings2utf8 (PyVal.dict (.cons (.str "a") (.int 0)
        (.cons (.bytes [97]) (.int 1) .nil)))
      = PyVal.dict (.cons (.bytes [97]) (.int 1) .nil) ∧
    ((keysD (s2uPairs (.cons (.str "a") (.int 0)
        (.cons (.str "b") (.int 1) .nil)))).Nodup) ∧
    (strings2utf8 (PyVal.dict (.cons (.str "a") (.int 0)
        (.cons (.str "b") (.int 1) .nil)))
      = PyVal.dict (s2uPairs (.cons (.str "a") (.int 0)
        (.cons (.str "b") (.int 1) .nil))) ∧
    pairsLen (s2uPairs (.cons (.str "a") (.int 0)
        (.cons (.str "b") (.int 1) .nil)))
      = pairsLen (.cons (.str "a") (.int 0)
        (.cons (.str "b") (.int 1) .nil))) :=
  ⟨claim10_key_merge.1, by decide,
    claim10_key_merge.2.2.2 (.cons (.str "a") (.int 0)
      (.cons (.str "b") (.int 1) .nil)) (by decide)⟩
